import Mathlib

/-!
Verification of the core algorithms of `SupMat_A1_A2.py` (room-location
inference for mobile motes): location identification from weighted signal
aggregation, and pattern-based smoothing of the resulting room sequences.

Python dictionaries are embedded as association lists (`List (key × value)`)
with first-occurrence lookup and replace-in-place update, which matches
dict semantics with insertion-order iteration.  Python floats are embedded
as rationals (`ℚ`): the quantities the algorithms compare are sums,
products and quotients of input values, so exact arithmetic is the shallow
embedding of the float expressions.  Python exceptions (`KeyError`,
`ZeroDivisionError`, `NameError`) are embedded as `Except String`.
Python `None` that can flow into room values is embedded as the `none`
of `Option Nat`, so a stored room id `r` is `some r`.
-/

/-- Lookup in a Python-dict-like association list: first entry whose key
matches. -/
def dictGet {α β : Type} [DecidableEq α] : List (α × β) → α → Option β
  | [], _ => none
  | e :: rest, k => if e.1 = k then some e.2 else dictGet rest k

/-- Update in a Python-dict-like association list: replace the first entry
with the given key in place, or append a new entry if the key is absent. -/
def dictSet {α β : Type} [DecidableEq α] : List (α × β) → α → β → List (α × β)
  | [], k, v => [(k, v)]
  | e :: rest, k, v => if e.1 = k then (k, v) :: rest else e :: dictSet rest k v

theorem dictGet_dictSet_self {α β : Type} [DecidableEq α] (d : List (α × β)) (k : α) (v : β) :
    dictGet (dictSet d k v) k = some v := by
  induction d with
  | nil => simp [dictGet, dictSet]
  | cons e rest ih =>
    by_cases h : e.1 = k
    · simp [dictGet, dictSet, h]
    · simp [dictGet, dictSet, h, ih]

theorem dictGet_dictSet_ne {α β : Type} [DecidableEq α] (d : List (α × β)) (k u : α) (v : β)
    (h : u ≠ k) : dictGet (dictSet d k v) u = dictGet d u := by
  have hku : ¬k = u := fun h2 => h h2.symm
  induction d with
  | nil => simp [dictGet, dictSet, hku]
  | cons e rest ih =>
    by_cases he : e.1 = k
    · simp [dictGet, dictSet, he, hku]
    · by_cases hu : e.1 = u <;> simp [dictGet, dictSet, he, hu, h, ih]

theorem dictSet_same {α β : Type} [DecidableEq α] (d : List (α × β)) (k : α) (v : β)
    (h : dictGet d k = some v) : dictSet d k v = d := by
  induction d with
  | nil => simp [dictGet] at h
  | cons e rest ih =>
    obtain ⟨e1, e2⟩ := e
    by_cases he : e1 = k
    · simp [dictGet, he] at h
      simp [dictSet, he, h]
    · simp [dictGet, he] at h
      simp [dictSet, he, ih h]

theorem mem_keys_of_dictGet {α β : Type} [DecidableEq α] (d : List (α × β)) (k : α) (v : β)
    (h : dictGet d k = some v) : k ∈ d.map Prod.fst := by
  induction d with
  | nil => simp [dictGet] at h
  | cons e rest ih =>
    by_cases he : e.1 = k
    · simp [he.symm]
    · simp [dictGet, he] at h
      simp [ih h]

theorem keys_dictSet_present {α β : Type} [DecidableEq α] (d : List (α × β)) (k : α) (v : β)
    (h : (dictGet d k).isSome) : (dictSet d k v).map Prod.fst = d.map Prod.fst := by
  induction d with
  | nil => simp [dictGet] at h
  | cons e rest ih =>
    by_cases he : e.1 = k
    · simp [dictSet, he]
    · simp [dictGet, he] at h
      simp [dictSet, he, ih h]

theorem dictGet_dictSet_isSome {α β : Type} [DecidableEq α] (d : List (α × β)) (k u : α)
    (v : β) (hk : (dictGet d k).isSome) :
    ((dictGet (dictSet d k v) u).isSome) = (dictGet d u).isSome := by
  by_cases h : u = k
  · subst h
    rw [dictGet_dictSet_self]
    simp [hk]
  · rw [dictGet_dictSet_ne _ _ _ _ h]

theorem mem_dictSet {α β : Type} [DecidableEq α] (d : List (α × β)) (k : α) (v : β)
    (e : α × β) (h : e ∈ dictSet d k v) : e = (k, v) ∨ e ∈ d := by
  induction d with
  | nil => simp [dictSet] at h; simp [h]
  | cons f rest ih =>
    by_cases hf : f.1 = k
    · simp [dictSet, hf] at h
      rcases h with h | h
      · left; simp [h]
      · right; simp [h]
    · simp [dictSet, hf] at h
      rcases h with h | h
      · right; simp [h]
      · rcases ih h with h2 | h2
        · left; exact h2
        · right; simp [h2]

/-! ### Data model of the source

`Signal_mob` / `Signal_sta` / `Signals` / `Receiver_sequence` / `AllData`
mirror the classes of `SupMat_A1_A2.py`.  The constructor of `Signal_sta`
in the source derives `rssi` from the raw reading via
`convert_reading_to_rssi` and `power = 10^(rssi/10)` via
`convert_rssi_to_power`; the latter is transcendental, so a `Signal_sta`
here carries its linear `power` in mW as a stored rational value (the
spec's examples supply linear powers directly). -/

structure Signal_mob where
  global_time : Int
  receiver_id : Nat
  sender_id : Nat
deriving DecidableEq, Repr

structure Signal_sta where
  global_time : Int
  receiver_id : Nat
  sender_id : Nat
  rssi : Int
  power : ℚ
deriving DecidableEq, Repr

/-- `Signal_sta.convert_reading_to_rssi` from the source: vendor-specific
calibration of a raw hardware reading into an RSSI value in dBm. -/
def Signal_sta.convert_reading_to_rssi (reading : Int) : Int :=
  if reading < 128 then reading - 45
  else -1 * (Int.xor (reading - 1) 0xFF) - 45

structure Signals where
  global_time : Int
  receiver_id : Nat
  mobile : List Signal_mob
  stationary : List Signal_sta
deriving DecidableEq, Repr

/-- `Signals.return_neighbor_ids`: sender ids of all mobile signals, in
list order. -/
def Signals.return_neighbor_ids (s : Signals) : List Nat :=
  s.mobile.map Signal_mob.sender_id

/-- `Signals.return_nearest_rooms`: dict from stationary sender id to
`(power, rssi)`, built by iterating the stationary signals (later
duplicates overwrite). -/
def Signals.return_nearest_rooms (s : Signals) : List (Nat × (ℚ × Int)) :=
  s.stationary.foldl (fun d r => dictSet d r.sender_id (r.power, r.rssi)) []

structure Receiver_sequence where
  receiver_id : Nat
  sequence : List (Int × Signals)
deriving DecidableEq, Repr

/-- `Receiver_sequence.return_neighbor_ids`: neighbor ids at time `t`, or
`[]` when no `Signals` object exists at `t`. -/
def Receiver_sequence.return_neighbor_ids (rs : Receiver_sequence) (t : Int) : List Nat :=
  match dictGet rs.sequence t with
  | some s => s.return_neighbor_ids
  | none => []

/-- `Receiver_sequence.return_nearest_rooms`: room-to-(power, rssi) dict at
time `t`, or the empty dict when no `Signals` object exists at `t`. -/
def Receiver_sequence.return_nearest_rooms (rs : Receiver_sequence) (t : Int) :
    List (Nat × (ℚ × Int)) :=
  match dictGet rs.sequence t with
  | some s => s.return_nearest_rooms
  | none => []

/-- The `AllData` container: `sequences` maps person id to
`Receiver_sequence`, `locations` maps person id to the dict from timestamp
to identified room.  Room values are `Option Nat` because Python code can
store `None` (the unbound pattern variable) as a room. -/
structure AllData where
  sequences : List (Nat × Receiver_sequence)
  locations : List (Nat × List (Int × Option Nat))
deriving DecidableEq, Repr

/-! ### `AllData.identify_location` -/

/-- Power threshold (in mW) below which stationary mote signals are no
longer believed to originate from the room the mobile mote is in. -/
def THRESHOLD : ℚ := 3.16e-9

/-- First loop of `identify_location`: the `contacts` dict, mapping each
timestamp `t + offset` that has a `Signals` entry to `[i] ++ neighbor ids`. -/
def contactsOf (seq_i : Receiver_sequence) (i : Nat) (t : Int) (kern : List (Int × ℚ)) :
    List (Int × List Nat) :=
  kern.foldl (fun cs tw =>
    match dictGet seq_i.sequence (t + tw.1) with
    | some _ => dictSet cs (t + tw.1) (i :: seq_i.return_neighbor_ids (t + tw.1))
    | none => cs) []

/-- The repeated weight determination of the source: iterate the kernel and
keep the weight of the last entry whose offset matches
`t_cur - offset = t`; the `carry` is the value the Python variable `weight`
held before the loop (it is left over from earlier iterations, and the
source raises `NameError` if it is still unset when used). -/
def stepWeight (kern : List (Int × ℚ)) (t t_cur : Int) (carry : Option ℚ) : Option ℚ :=
  kern.foldl (fun a tw => if t_cur - tw.1 = t then some tw.2 else a) carry

/-- Second loop of `identify_location`: accumulate
`w_number_datapoints += len(contacts[t_cur]) * weight`. -/
def wndLoop (kern : List (Int × ℚ)) (t : Int) :
    List (Int × List Nat) → Option ℚ → ℚ → Except String (ℚ × Option ℚ)
  | [], carry, acc => Except.ok (acc, carry)
  | e :: rest, carry, acc =>
    match stepWeight kern t e.1 carry with
    | some w => wndLoop kern t rest (some w) (acc + (e.2.length : ℚ) * w)
    | none => Except.error "NameError: weight"

/-- Innermost accumulation of `identify_location`: fold one contact's
nearest-room dict into `data[t_cur]`, adding
`power * weight / w_number_datapoints` per room (`ZeroDivisionError` when
the normalizer is zero). -/
def innerRooms (m : List (Nat × ℚ)) (rooms : List (Nat × (ℚ × Int))) (w wnd : ℚ) :
    Except String (List (Nat × ℚ)) :=
  match rooms with
  | [] => Except.ok m
  | rp :: rest =>
    if wnd = 0 then Except.error "ZeroDivisionError"
    else
      match dictGet m rp.1 with
      | some old => innerRooms (dictSet m rp.1 (old + rp.2.1 * w / wnd)) rest w wnd
      | none => innerRooms (dictSet m rp.1 (rp.2.1 * w / wnd)) rest w wnd

/-- Iterate the contacts at one timestamp; each contact `c` is looked up in
`sequences` (`KeyError` if it has no observation store of its own). -/
def innerContacts (seqs : List (Nat × Receiver_sequence)) (cs : List Nat) (t_cur : Int)
    (w wnd : ℚ) (m : List (Nat × ℚ)) : Except String (List (Nat × ℚ)) :=
  match cs with
  | [] => Except.ok m
  | c :: rest =>
    match dictGet seqs c with
    | none => Except.error "KeyError: sequences"
    | some seqc =>
      match innerRooms m (seqc.return_nearest_rooms t_cur) w wnd with
      | Except.error e => Except.error e
      | Except.ok m2 => innerContacts seqs rest t_cur w wnd m2

/-- Third loop of `identify_location`: build the `data` dict mapping each
contact timestamp to its per-room weighted partial signals. -/
def dataLoop (seqs : List (Nat × Receiver_sequence)) (kern : List (Int × ℚ)) (t : Int) :
    List (Int × List Nat) → Option ℚ → ℚ → List (Int × List (Nat × ℚ)) →
      Except String (List (Int × List (Nat × ℚ)))
  | [], _, _, data => Except.ok data
  | e :: rest, carry, wnd, data =>
    match stepWeight kern t e.1 carry with
    | none => Except.error "NameError: weight"
    | some w =>
      match innerContacts seqs e.2 e.1 w wnd [] with
      | Except.error er => Except.error er
      | Except.ok m => dataLoop seqs kern t rest (some w) wnd (dictSet data e.1 m)

/-- Fourth loop of `identify_location`: sum the partial signal strengths of
`data` into the `signals` dict, room by room. -/
def signalsSum (data : List (Int × List (Nat × ℚ))) : List (Nat × ℚ) :=
  data.foldl (fun sig e =>
    e.2.foldl (fun s rp =>
      let s0 := match dictGet s rp.1 with
        | none => dictSet s rp.1 0
        | some _ => s
      match dictGet s0 rp.1 with
      | some v => dictSet s0 rp.1 (v + rp.2)
      | none => dictSet s0 rp.1 rp.2) sig) []

/-- Final selection loop of `identify_location`: running maximum starting
at `(0.0, 0)`, updated only on strictly larger signal. -/
def findMax (signals : List (Nat × ℚ)) : ℚ × Nat :=
  signals.foldl (fun acc rs => if acc.1 < rs.2 then (rs.2, rs.1) else acc) (0, 0)

/-- The aggregation part of `identify_location`: everything up to (and
excluding) the maximum search.  Returns `(w_number_datapoints, signals)`. -/
def aggregate (st : AllData) (i : Nat) (t : Int) (kern : List (Int × ℚ)) :
    Except String (ℚ × List (Nat × ℚ)) :=
  match dictGet st.sequences i with
  | none => Except.error "KeyError: sequences i"
  | some seq_i =>
    match wndLoop kern t (contactsOf seq_i i t kern) none 0 with
    | Except.error e => Except.error e
    | Except.ok wc =>
      match dataLoop st.sequences kern t (contactsOf seq_i i t kern) wc.2 wc.1 [] with
      | Except.error e => Except.error e
      | Except.ok data => Except.ok (wc.1, signalsSum data)

/-- Store the identified room id into `locations[i][t]`, creating the inner
dict if `i` has none (lines 137-140 of the source). -/
def updateLoc (st : AllData) (i : Nat) (t : Int) (m : Nat) : AllData :=
  { st with locations :=
      dictSet st.locations i (dictSet ((dictGet st.locations i).getD []) t (some m)) }

/-- `AllData.identify_location` with the detection threshold as an explicit
parameter (the source hardcodes `THRESHOLD`). -/
def identify_location_thr (thr : ℚ) (st : AllData) (i : Nat) (t : Int)
    (kern : List (Int × ℚ)) : Except String (Nat × AllData) :=
  match aggregate st i t kern with
  | Except.error e => Except.error e
  | Except.ok ws =>
    let fm := findMax ws.2
    let max_id := if fm.1 < thr then 0 else fm.2
    Except.ok (max_id, updateLoc st i t max_id)

/-- `AllData.identify_location` of the source. -/
def identify_location (st : AllData) (i : Nat) (t : Int) (kern : List (Int × ℚ)) :
    Except String (Nat × AllData) :=
  identify_location_thr THRESHOLD st i t kern

/-! ### `AllData.smooth_location` -/

/-- The pattern-match walk of `smooth_location`: one step per pattern
element, carrying the two room variables `r1` and `r2` (Python `None`,
i.e. unbound, is `none`).  Returns `none` when the walk sets the failure
flag (missing timestamp or violated condition), and the final `(r1, r2)`
on success. -/
def walkLoop (locs : List (Int × Option Nat)) :
    List Bool → Int → Option Nat → Option Nat → Option (Option Nat × Option Nat)
  | [], _, r1, r2 => some (r1, r2)
  | b :: rest, tc, r1, r2 =>
    match dictGet locs tc with
    | none => none
    | some room =>
      if b then
        let r1b := if r1 = none then room else r1
        if r1b = room then walkLoop locs rest (tc + 1) r1b r2 else none
      else
        let r2b := if r2 = none then room else r2
        if r2b = r1 then none
        else if r2b = room then walkLoop locs rest (tc + 1) r1 r2b else none

/-- The rewrite loop of `smooth_location`: set every position labeled
`False` in the window to `r1`. -/
def rewriteLoop (locs : List (Int × Option Nat)) :
    List Bool → Int → Option Nat → List (Int × Option Nat)
  | [], _, _ => locs
  | b :: rest, tc, r1 =>
    rewriteLoop (if b = false then dictSet locs tc r1 else locs) rest (tc + 1) r1

/-- The pattern loop of `smooth_location`: try each pattern in order; the
first whose walk succeeds is applied (and the loop breaks), otherwise the
sequence is returned unchanged with result `0`. -/
def smoothPatterns (locs : List (Int × Option Nat)) (t : Int) :
    List (List Bool) → Nat × List (Int × Option Nat)
  | [] => (0, locs)
  | p :: rest =>
    match walkLoop locs p t none none with
    | some r12 => (1, rewriteLoop locs p t r12.1)
    | none => smoothPatterns locs t rest

/-- `AllData.smooth_location` of the source.  `KeyError` when receiver `i`
has no `locations` entry at all. -/
def smooth_location (st : AllData) (i : Nat) (t : Int) (patterns : List (List Bool)) :
    Except String (Nat × AllData) :=
  match dictGet st.locations i with
  | none => Except.error "KeyError: locations"
  | some locs =>
    Except.ok ((smoothPatterns locs t patterns).1,
      { st with locations := dictSet st.locations i (smoothPatterns locs t patterns).2 })

/-! ### The driving loops of the main program

The main program runs `identify_location` over the timestamp range, then
repeats full passes of `smooth_location` over the range until a pass makes
zero corrections.  Since `smooth_location` only reads and writes
`locations[i]`, the passes are stated on the room sequence of the one
receiver being processed. -/

/-- One sequential run of `identify_location` over a list of timestamps,
threading the state and counting non-zero room assignments; a raised
exception aborts the run. -/
def runIdentify (thr : ℚ) (st : AllData) (i : Nat) (kern : List (Int × ℚ)) :
    List Int → Nat × AllData
  | [] => (0, st)
  | t :: ts =>
    match identify_location_thr thr st i t kern with
    | Except.error _ => (0, st)
    | Except.ok rs =>
      ((if rs.1 ≠ 0 then 1 else 0) + (runIdentify thr rs.2 i kern ts).1,
        (runIdentify thr rs.2 i kern ts).2)

/-- One full smoothing pass: `smooth_location` at every timestamp of the
range in order, accumulating the correction count (`cnt` of the main
program). -/
def smoothPass (patterns : List (List Bool)) (ts : List Int)
    (locs : List (Int × Option Nat)) : List (Int × Option Nat) × Nat :=
  ts.foldl (fun acc t =>
    ((smoothPatterns acc.1 t patterns).2, acc.2 + (smoothPatterns acc.1 t patterns).1))
    (locs, 0)

/-- The room sequence after one full smoothing pass. -/
def passLocs (patterns : List (List Bool)) (ts : List Int)
    (locs : List (Int × Option Nat)) : List (Int × Option Nat) :=
  (smoothPass patterns ts locs).1

/-- The fixed-point contract of the main smoothing loop: some pass makes
zero corrections (the `while cnt > 0` loop then exits). -/
def smoothingTerminates (patterns : List (List Bool)) (ts : List Int)
    (locs : List (Int × Option Nat)) : Prop :=
  ∃ n, (smoothPass patterns ts ((passLocs patterns ts)^[n] locs)).2 = 0

deriving instance DecidableEq for Except

/-! ### Concrete states used in examples and witnesses -/

/-- Receiver 7 at t = 100: sees mobile mote 8 and stationary beacon 10050
at linear power 5e-9 mW. -/
def exSeqR : Receiver_sequence :=
  ⟨7, [(100, ⟨100, 7, [⟨100, 7, 8⟩], [⟨100, 7, 10050, -83, 5e-9⟩]⟩)]⟩

/-- Mobile mote 8 at t = 100: sees beacon 10050 at linear power 1e-9 mW. -/
def exSeqX : Receiver_sequence :=
  ⟨8, [(100, ⟨100, 8, [], [⟨100, 8, 10050, -90, 1e-9⟩]⟩)]⟩

/-- The example-scenario state of the spec (receiver `R` is 7, `moteX` is 8). -/
def exState : AllData := ⟨[(7, exSeqR), (8, exSeqX)], [(7, []), (8, [])]⟩

/-- Like `exState` but with both powers scaled by 10, putting the
aggregated signal above the threshold. -/
def exSeqR10 : Receiver_sequence :=
  ⟨7, [(100, ⟨100, 7, [⟨100, 7, 8⟩], [⟨100, 7, 10050, -73, 5e-8⟩]⟩)]⟩

/-- Companion of `exSeqR10` for mote 8. -/
def exSeqX10 : Receiver_sequence :=
  ⟨8, [(100, ⟨100, 8, [], [⟨100, 8, 10050, -80, 1e-8⟩]⟩)]⟩

/-- Scaled variant of `exState`. -/
def exState10 : AllData := ⟨[(7, exSeqR10), (8, exSeqX10)], [(7, []), (8, [])]⟩

/-- Receiver 1 hears mobile mote 9, but mote 9 has no observation store in
`sequences`. -/
def exSeqOrphan : Receiver_sequence := ⟨1, [(100, ⟨100, 1, [⟨100, 1, 9⟩], []⟩)]⟩

/-- State in which a mobile contact (mote 9) of receiver 1 has no
observation store of its own. -/
def exStateOrphan : AllData := ⟨[(1, exSeqOrphan)], [(1, [])]⟩

/-! ### C5: the calibration formula -/

/-- `toCalibratedSignal` exactly as the specification words it: if
`rawReading < 128` the signal is `rawReading - 45`, otherwise it is
`-1 * ((rawReading - 1) bitwise-XOR 0xFF) - 45`. -/
def toCalibratedSignal (rawReading : Int) : Int :=
  if rawReading < 128 then rawReading - 45
  else -1 * (Int.xor (rawReading - 1) 0xFF) - 45

/-- C5: for every integer raw reading, the source's
`Signal_sta.convert_reading_to_rssi` returns `rawReading - 45` below 128
and `-1 * ((rawReading - 1) XOR 0xFF) - 45` otherwise, i.e. it agrees
everywhere with the spec's `toCalibratedSignal`. -/
theorem convert_reading_matches_spec :
    ∀ rawReading : Int,
      Signal_sta.convert_reading_to_rssi rawReading = toCalibratedSignal rawReading :=
  fun _ => rfl

/-! ### C2: the example scenario -/

/-- C2: in the example scenario (receiver 7 with contact mote 8 at t = 100,
powers 5e-9 and 1e-9 mW for beacon 10050, kernel `[(0, 1)]`),
`identify_location` computes `w_number_datapoints = 2`, aggregated signal
`signals[10050] = 5e-9/2 + 1e-9/2 = 3e-9`, and since `3e-9` is below the
threshold `3.16e-9` it returns room 0. -/
theorem identify_example_scenario :
    aggregate exState 7 100 [(0, 1)] = Except.ok (2, [(10050, 3e-9)]) ∧
    identify_location exState 7 100 [(0, 1)] = Except.ok (0, updateLoc exState 7 100 0) := by
  constructor
  · norm_num [aggregate, contactsOf, stepWeight, wndLoop, dataLoop, innerContacts, innerRooms,
      signalsSum, dictGet, dictSet, exState, exSeqR, exSeqX,
      Receiver_sequence.return_nearest_rooms, Receiver_sequence.return_neighbor_ids,
      Signals.return_nearest_rooms, Signals.return_neighbor_ids]
  · norm_num [identify_location, identify_location_thr, THRESHOLD, findMax, updateLoc,
      aggregate, contactsOf, stepWeight, wndLoop, dataLoop, innerContacts, innerRooms,
      signalsSum, dictGet, dictSet, exState, exSeqR, exSeqX,
      Receiver_sequence.return_nearest_rooms, Receiver_sequence.return_neighbor_ids,
      Signals.return_nearest_rooms, Signals.return_neighbor_ids]

/-! ### C3: the smoothing correctness example -/

/-- C3: if a receiver's room sequence holds `[A, B, A, A]` at t = 0..3 with
`A ≠ B`, then `smooth_location` at t = 0 with the single pattern
`(True, False, True, True)` rewrites the sequence to `[A, A, A, A]` and
returns that a correction was applied. -/
theorem smooth_aba_example :
    ∀ (A B i : Nat) (st : AllData),
      A ≠ B →
      dictGet st.locations i = some [(0, some A), (1, some B), (2, some A), (3, some A)] →
      smooth_location st i 0 [[true, false, true, true]] =
        Except.ok (1, ⟨st.sequences,
          dictSet st.locations i [(0, some A), (1, some A), (2, some A), (3, some A)]⟩) := by
  intro A B i st hAB hloc
  have hBA : ¬B = A := fun h => hAB h.symm
  simp only [smooth_location, hloc]
  norm_num [smoothPatterns, walkLoop, rewriteLoop, dictGet, dictSet, hBA]

/-- Witness for C3 at `A = 1`, `B = 2`, `i = 5`. -/
theorem smooth_aba_example_witness :
    (1 : Nat) ≠ 2 ∧
    smooth_location ⟨[], [(5, [(0, some 1), (1, some 2), (2, some 1), (3, some 1)])]⟩
        5 0 [[true, false, true, true]] =
      Except.ok (1, ⟨[],
        dictSet [(5, [(0, some 1), (1, some 2), (2, some 1), (3, some 1)])] 5
          [(0, some 1), (1, some 1), (2, some 1), (3, some 1)]⟩) :=
  ⟨by decide, smooth_aba_example 1 2 5
    ⟨[], [(5, [(0, some 1), (1, some 2), (2, some 1), (3, some 1)])]⟩ (by decide) (by decide)⟩

/-! ### C4: a missing-data gap is a normal non-match -/

theorem walkLoop_isSome_of_ok :
    ∀ (locs : List (Int × Option Nat)) (p : List Bool) (tc : Int) (r1 r2 : Option Nat)
      (res : Option Nat × Option Nat),
      walkLoop locs p tc r1 r2 = some res →
      ∀ k : Nat, k < p.length → (dictGet locs (tc + k)).isSome := by
  intro locs p
  induction p with
  | nil => intro tc r1 r2 res _ k hk; simp at hk
  | cons b rest ih =>
    intro tc r1 r2 res h k hk
    simp only [walkLoop] at h
    cases hd : dictGet locs tc with
    | none => rw [hd] at h; simp at h
    | some room =>
      rw [hd] at h
      simp only at h
      match k with
      | 0 => simp [hd]
      | Nat.succ j =>
        have hj : j < rest.length := by simpa using hk
        have harith : tc + ((j + 1 : Nat) : Int) = (tc + 1) + (j : Int) := by push_cast; ring
        rw [harith]
        cases b with
        | true =>
          by_cases hc : (if r1 = none then room else r1) = room
          · rw [if_pos hc] at h
            exact ih (tc + 1) _ r2 res h j hj
          · rw [if_neg hc] at h; simp at h
        | false =>
          by_cases hc1 : (if r2 = none then room else r2) = r1
          · rw [if_pos hc1] at h; simp at h
          · rw [if_neg hc1] at h
            by_cases hc2 : (if r2 = none then room else r2) = room
            · rw [if_pos hc2] at h
              exact ih (tc + 1) r1 _ res h j hj
            · rw [if_neg hc2] at h; simp at h

theorem smoothPatterns_all_fail :
    ∀ (locs : List (Int × Option Nat)) (t : Int) (pats : List (List Bool)),
      (∀ p ∈ pats, walkLoop locs p t none none = none) →
      smoothPatterns locs t pats = (0, locs) := by
  intro locs t pats h
  induction pats with
  | nil => rfl
  | cons p rest ih =>
    have hp := h p (by simp)
    simp only [smoothPatterns, hp]
    exact ih (fun q hq => h q (by simp [hq]))

/-- C4: if every supplied pattern's walk hits a timestamp absent from the
room sequence, `smooth_location` returns 0 (no correction), leaves every
existing entry unchanged (the state is returned as-is), and raises no
error. -/
theorem smooth_gap_no_change :
    ∀ (st : AllData) (i : Nat) (t : Int) (patterns : List (List Bool))
      (locs : List (Int × Option Nat)),
      dictGet st.locations i = some locs →
      (∀ p ∈ patterns, ∃ k : Nat, k < p.length ∧ dictGet locs (t + k) = none) →
      smooth_location st i t patterns = Except.ok (0, st) := by
  intro st i t patterns locs hloc hgap
  have hfail : ∀ p ∈ patterns, walkLoop locs p t none none = none := by
    intro p hp
    cases hw : walkLoop locs p t none none with
    | none => rfl
    | some res =>
      obtain ⟨k, hk, hnone⟩ := hgap p hp
      have := walkLoop_isSome_of_ok locs p t none none res hw k hk
      rw [hnone] at this
      simp at this
  simp only [smooth_location, hloc, smoothPatterns_all_fail locs t patterns hfail]
  rw [dictSet_same st.locations i locs hloc]

/-- Witness for C4: room sequence with timestamps 0, 1, 3 (missing 2) and a
single pattern of length 4 starting at t = 0. -/
theorem smooth_gap_no_change_witness :
    smooth_location ⟨[], [(5, [(0, some 1), (1, some 2), (3, some 1)])]⟩
        5 0 [[true, false, true, true]] =
      Except.ok (0, ⟨[], [(5, [(0, some 1), (1, some 2), (3, some 1)])]⟩) :=
  smooth_gap_no_change ⟨[], [(5, [(0, some 1), (1, some 2), (3, some 1)])]⟩ 5 0
    [[true, false, true, true]] [(0, some 1), (1, some 2), (3, some 1)]
    (by decide)
    (by intro p hp
        simp at hp
        subst hp
        exact ⟨2, by decide, by decide⟩)

/-! ### C9: room sequences never shrink -/

/-- The room value of receiver `j` at time `u` in a `locations` table
(Python `locations[j][u]`, a missing receiver read as the empty dict). -/
def valAt (L : List (Nat × List (Int × Option Nat))) (j : Nat) (u : Int) :
    Option (Option Nat) :=
  dictGet ((dictGet L j).getD []) u

theorem identify_thr_ok_state :
    ∀ (thr : ℚ) (st : AllData) (i : Nat) (t : Int) (kern : List (Int × ℚ)) (r : Nat)
      (st2 : AllData),
      identify_location_thr thr st i t kern = Except.ok (r, st2) →
      st2 = updateLoc st i t r := by
  intro thr st i t kern r st2 h
  simp only [identify_location_thr] at h
  cases ha : aggregate st i t kern with
  | error e => rw [ha] at h; simp at h
  | ok ws =>
    rw [ha] at h
    simp only [Except.ok.injEq, Prod.mk.injEq] at h
    rw [← h.1, h.2]

theorem rewriteLoop_isSome_iff :
    ∀ (p : List Bool) (locs : List (Int × Option Nat)) (tc : Int) (r1 : Option Nat),
      (∀ k : Nat, k < p.length → (dictGet locs (tc + k)).isSome) →
      ∀ u, (dictGet (rewriteLoop locs p tc r1) u).isSome = (dictGet locs u).isSome := by
  intro p
  induction p with
  | nil => intro locs tc r1 _ u; rfl
  | cons b rest ih =>
    intro locs tc r1 hpres u
    simp only [rewriteLoop]
    have hsame : ∀ v, (dictGet (if b = false then dictSet locs tc r1 else locs) v).isSome
        = (dictGet locs v).isSome := by
      intro v
      by_cases hb : b = false
      · rw [if_pos hb]
        exact dictGet_dictSet_isSome locs tc v r1 (by simpa using hpres 0 (by simp))
      · rw [if_neg hb]
    have hpres2 : ∀ k : Nat, k < rest.length →
        (dictGet (if b = false then dictSet locs tc r1 else locs) ((tc + 1) + k)).isSome := by
      intro k hk
      rw [hsame]
      have harith : (tc + 1) + (k : Int) = tc + ((k + 1 : Nat) : Int) := by push_cast; ring
      rw [harith]
      exact hpres (k + 1) (by simpa using hk)
    rw [ih _ (tc + 1) r1 hpres2 u, hsame]

theorem smoothPatterns_isSome_iff :
    ∀ (pats : List (List Bool)) (locs : List (Int × Option Nat)) (t u : Int),
      (dictGet (smoothPatterns locs t pats).2 u).isSome = (dictGet locs u).isSome := by
  intro pats locs t
  induction pats with
  | nil => intro u; rfl
  | cons p rest ih =>
    intro u
    cases hw : walkLoop locs p t none none with
    | none => simp only [smoothPatterns, hw]; exact ih u
    | some r12 =>
      simp only [smoothPatterns, hw]
      exact rewriteLoop_isSome_iff p locs t r12.1
        (fun k hk => walkLoop_isSome_of_ok locs p t none none r12 hw k hk) u

theorem smooth_ok_state :
    ∀ (st : AllData) (i : Nat) (t : Int) (pats : List (List Bool)) (c : Nat) (st2 : AllData),
      smooth_location st i t pats = Except.ok (c, st2) →
      ∃ locs, dictGet st.locations i = some locs ∧
        c = (smoothPatterns locs t pats).1 ∧
        st2 = ⟨st.sequences, dictSet st.locations i (smoothPatterns locs t pats).2⟩ := by
  intro st i t pats c st2 h
  simp only [smooth_location] at h
  cases hl : dictGet st.locations i with
  | none => rw [hl] at h; simp at h
  | some locs =>
    rw [hl] at h
    simp only [Except.ok.injEq, Prod.mk.injEq] at h
    exact ⟨locs, rfl, h.1.symm, h.2.symm⟩

/-- C9: the set of timestamps present in a receiver's room sequence never
shrinks: `identify_location` only adds or overwrites the entry at `t` and
changes nothing else, and `smooth_location` only overwrites entries at
timestamps already present (the domain of every room sequence is
unchanged). -/
theorem room_sequence_never_shrinks :
    ∀ (st : AllData) (i : Nat) (t : Int) (kern : List (Int × ℚ)) (r : Nat) (st2 : AllData)
      (su : AllData) (j2 : Nat) (t2 : Int) (pats : List (List Bool)) (c : Nat)
      (su2 : AllData),
      identify_location st i t kern = Except.ok (r, st2) →
      smooth_location su j2 t2 pats = Except.ok (c, su2) →
      (∀ j u, (valAt st.locations j u).isSome → (valAt st2.locations j u).isSome) ∧
      (∀ j u, ¬(j = i ∧ u = t) → valAt st2.locations j u = valAt st.locations j u) ∧
      (∀ j u, (valAt su2.locations j u).isSome = (valAt su.locations j u).isSome) := by
  intro st i t kern r st2 su j2 t2 pats c su2 hid hsm
  have hst2 : st2 = updateLoc st i t r :=
    identify_thr_ok_state THRESHOLD st i t kern r st2 hid
  obtain ⟨locs, hl, hc, hsu2⟩ := smooth_ok_state su j2 t2 pats c su2 hsm
  subst hst2
  subst hsu2
  refine ⟨?_, ?_, ?_⟩
  · intro j u hpres
    simp only [valAt, updateLoc] at *
    by_cases hj : j = i
    · subst hj
      rw [dictGet_dictSet_self]
      by_cases hu : u = t
      · subst hu
        simp [dictGet_dictSet_self]
      · simp only [Option.getD_some]
        rw [dictGet_dictSet_ne _ _ _ _ hu]
        exact hpres
    · rw [dictGet_dictSet_ne _ _ _ _ hj]
      exact hpres
  · intro j u hne
    simp only [valAt, updateLoc]
    by_cases hj : j = i
    · subst hj
      rw [dictGet_dictSet_self]
      have hu : u ≠ t := fun h => hne ⟨rfl, h⟩
      simp only [Option.getD_some]
      rw [dictGet_dictSet_ne _ _ _ _ hu]
    · rw [dictGet_dictSet_ne _ _ _ _ hj]
  · intro j u
    simp only [valAt]
    by_cases hj : j = j2
    · subst hj
      rw [dictGet_dictSet_self, hl]
      simp only [Option.getD_some]
      exact smoothPatterns_isSome_iff pats locs t2 u
    · rw [dictGet_dictSet_ne _ _ _ _ hj]

/-- Witness for C9: the example state for `identify_location` and the
`[A,B,A,A]` state for `smooth_location`. -/
theorem room_sequence_never_shrinks_witness :
    ((valAt exState.locations 7 100).isSome →
      (valAt (updateLoc exState 7 100 0).locations 7 100).isSome) ∧
    (valAt (⟨[], dictSet [(5, [(0, some 1), (1, some 2), (2, some 1), (3, some 1)])] 5
        [(0, some 1), (1, some 1), (2, some 1), (3, some 1)]⟩ : AllData).locations 5 1).isSome
      = (valAt [(5, [(0, some 1), (1, some 2), (2, some 1), (3, some 1)])] 5 1).isSome := by
  have h := room_sequence_never_shrinks exState 7 100 [(0, 1)] 0 (updateLoc exState 7 100 0)
    ⟨[], [(5, [(0, some 1), (1, some 2), (2, some 1), (3, some 1)])]⟩ 5 0
    [[true, false, true, true]] 1
    ⟨[], dictSet [(5, [(0, some 1), (1, some 2), (2, some 1), (3, some 1)])] 5
      [(0, some 1), (1, some 1), (2, some 1), (3, some 1)]⟩
    (by norm_num [identify_location, identify_location_thr, THRESHOLD, findMax, updateLoc,
      aggregate, contactsOf, stepWeight, wndLoop, dataLoop, innerContacts, innerRooms,
      signalsSum, dictGet, dictSet, exState, exSeqR, exSeqX,
      Receiver_sequence.return_nearest_rooms, Receiver_sequence.return_neighbor_ids,
      Signals.return_nearest_rooms, Signals.return_neighbor_ids])
    (by decide)
  exact ⟨h.1 7 100, h.2.2 5 1⟩

/-! ### C10: frame effect of an applied correction -/

theorem smoothPatterns_first_match :
    ∀ (pre : List (List Bool)) (p : List Bool) (rest : List (List Bool))
      (locs : List (Int × Option Nat)) (t : Int) (r12 : Option Nat × Option Nat),
      (∀ q ∈ pre, walkLoop locs q t none none = none) →
      walkLoop locs p t none none = some r12 →
      smoothPatterns locs t (pre ++ p :: rest) = (1, rewriteLoop locs p t r12.1) := by
  intro pre p rest locs t r12 hpre hp
  induction pre with
  | nil => simp only [List.nil_append, smoothPatterns, hp]
  | cons q qs ih =>
    have hq := hpre q (by simp)
    simp only [List.cons_append, smoothPatterns, hq]
    exact ih (fun q2 hq2 => hpre q2 (by simp [hq2]))

theorem rewriteLoop_frame :
    ∀ (p : List Bool) (locs : List (Int × Option Nat)) (tc : Int) (r1 : Option Nat)
      (u : Int),
      (∀ (k : Nat) (hk : k < p.length), p.get ⟨k, hk⟩ = false → u ≠ tc + k) →
      dictGet (rewriteLoop locs p tc r1) u = dictGet locs u := by
  intro p
  induction p with
  | nil => intro locs tc r1 u _; rfl
  | cons b rest ih =>
    intro locs tc r1 u hne
    simp only [rewriteLoop]
    have hrec : ∀ (k : Nat) (hk : k < rest.length), rest.get ⟨k, hk⟩ = false →
        u ≠ (tc + 1) + k := by
      intro k hk hfalse
      have harith : (tc + 1) + (k : Int) = tc + ((k + 1 : Nat) : Int) := by push_cast; ring
      rw [harith]
      exact hne (k + 1) (by simpa using hk) hfalse
    rw [ih _ (tc + 1) r1 u hrec]
    by_cases hb : b = false
    · rw [if_pos hb]
      have hu : u ≠ tc := by
        have := hne 0 (by simp) (by simpa using hb)
        simpa using this
      exact dictGet_dictSet_ne locs tc u r1 hu
    · rw [if_neg hb]

theorem rewriteLoop_sets :
    ∀ (p : List Bool) (locs : List (Int × Option Nat)) (tc : Int) (r1 : Option Nat)
      (k : Nat) (hk : k < p.length),
      p.get ⟨k, hk⟩ = false →
      dictGet (rewriteLoop locs p tc r1) (tc + k) = some r1 := by
  intro p
  induction p with
  | nil => intro locs tc r1 k hk; simp at hk
  | cons b rest ih =>
    intro locs tc r1 k hk hfalse
    simp only [rewriteLoop]
    match k with
    | 0 =>
      have hb : b = false := by simpa using hfalse
      subst hb
      simp only [if_pos rfl]
      have hframe : ∀ (k2 : Nat) (hk2 : k2 < rest.length), rest.get ⟨k2, hk2⟩ = false →
          tc + ((0 : Nat) : Int) ≠ (tc + 1) + k2 := by
        intro k2 _ _
        simp only [Nat.cast_zero, add_zero]
        omega
      rw [rewriteLoop_frame rest _ (tc + 1) r1 _ hframe]
      simp only [Nat.cast_zero, add_zero]
      exact dictGet_dictSet_self locs tc r1
    | Nat.succ j =>
      have hj : j < rest.length := by simpa using hk
      have hfj : rest.get ⟨j, hj⟩ = false := by simpa using hfalse
      have harith : tc + ((j + 1 : Nat) : Int) = (tc + 1) + (j : Int) := by push_cast; ring
      rw [harith]
      exact ih _ (tc + 1) r1 j hj hfj

theorem walkLoop_r1_some :
    ∀ (locs : List (Int × Option Nat)) (p : List Bool) (tc : Int) (a : Nat)
      (r2 : Option Nat) (res : Option Nat × Option Nat),
      walkLoop locs p tc (some a) r2 = some res → res.1 = some a := by
  intro locs p
  induction p with
  | nil =>
    intro tc a r2 res h
    simp only [walkLoop, Option.some.injEq] at h
    rw [← h]
  | cons b rest ih =>
    intro tc a r2 res h
    simp only [walkLoop] at h
    cases hd : dictGet locs tc with
    | none => rw [hd] at h; simp at h
    | some room =>
      rw [hd] at h
      simp only at h
      cases b with
      | true =>
        simp only [if_true, if_false, reduceCtorEq] at h
        by_cases hc : (some a : Option Nat) = room
        · rw [if_pos hc] at h
          exact ih (tc + 1) a r2 res h
        · rw [if_neg hc] at h; simp at h
      | false =>
        simp only [if_true, if_false, reduceCtorEq] at h
        by_cases hc1 : (if r2 = none then room else r2) = some a
        · rw [if_pos hc1] at h; simp at h
        · rw [if_neg hc1] at h
          by_cases hc2 : (if r2 = none then room else r2) = room
          · rw [if_pos hc2] at h
            exact ih (tc + 1) a _ res h
          · rw [if_neg hc2] at h; simp at h

theorem walkLoop_first_true :
    ∀ (locs : List (Int × Option Nat)) (p : List Bool) (tc : Int) (r2 : Option Nat)
      (res : Option Nat × Option Nat),
      walkLoop locs p tc none r2 = some res →
      ∀ (k : Nat) (hk : k < p.length), p.get ⟨k, hk⟩ = true →
      (∀ (j : Nat) (hj : j < p.length), j < k → p.get ⟨j, hj⟩ = false) →
      ∀ a : Nat, dictGet locs (tc + (k : Int)) = some (some a) → res.1 = some a := by
  intro locs p
  induction p with
  | nil => intro tc r2 res _ k hk; simp at hk
  | cons b rest ih =>
    intro tc r2 res h k hk htrue hearlier a hval
    simp only [walkLoop] at h
    cases hd : dictGet locs tc with
    | none => rw [hd] at h; simp at h
    | some room =>
      rw [hd] at h
      simp only at h
      match k with
      | 0 =>
        have hb : b = true := by simpa using htrue
        subst hb
        simp at h
        have hroom : room = some a := by
          have h2 : dictGet locs tc = some (some a) := by simpa using hval
          rw [hd] at h2
          simpa using h2
        rw [hroom] at h
        exact walkLoop_r1_some locs rest (tc + 1) a r2 res h
      | Nat.succ j =>
        have hb : b = false := by
          have := hearlier 0 (by simp) (Nat.succ_pos j)
          simpa using this
        subst hb
        simp only [if_true, if_false, Bool.false_eq_true, reduceCtorEq] at h
        by_cases hc1 : (if r2 = none then room else r2) = none
        · rw [if_pos hc1] at h; simp at h
        · rw [if_neg hc1] at h
          by_cases hc2 : (if r2 = none then room else r2) = room
          · rw [if_pos hc2] at h
            have hj : j < rest.length := by simpa using hk
            have harith : tc + ((j + 1 : Nat) : Int) = (tc + 1) + (j : Int) := by
              push_cast; ring
            refine ih (tc + 1) _ res h j hj (by simpa using htrue) ?_ a ?_
            · intro j2 hj2 hlt
              have := hearlier (j2 + 1) (by simpa using hj2) (by omega)
              simpa using this
            · rw [← harith]
              exact hval
          · rw [if_neg hc2] at h; simp at h

/-- C10: when `smooth_location` applies a correction via the first matching
pattern `p`, the only entries that change are receiver `i`'s room sequence
at the offsets labeled `False` in `p` (each set to `r1`, the room bound at
the first `True` position); every other entry of `i`'s sequence, every
other receiver's sequence and all observation stores are unchanged. -/
theorem smooth_frame_effect :
    ∀ (st : AllData) (i : Nat) (t : Int) (pre : List (List Bool)) (p : List Bool)
      (rest : List (List Bool)) (locs : List (Int × Option Nat)) (r1 r2 : Option Nat),
      dictGet st.locations i = some locs →
      (∀ q ∈ pre, walkLoop locs q t none none = none) →
      walkLoop locs p t none none = some (r1, r2) →
      ∃ st2, smooth_location st i t (pre ++ p :: rest) = Except.ok (1, st2) ∧
        st2.sequences = st.sequences ∧
        (∀ j, j ≠ i → dictGet st2.locations j = dictGet st.locations j) ∧
        ∃ locs2, dictGet st2.locations i = some locs2 ∧
          (∀ (k : Nat) (hk : k < p.length), p.get ⟨k, hk⟩ = false →
            dictGet locs2 (t + (k : Int)) = some r1) ∧
          (∀ u : Int,
            (∀ (k : Nat) (hk : k < p.length), p.get ⟨k, hk⟩ = false → u ≠ t + (k : Int)) →
            dictGet locs2 u = dictGet locs u) ∧
          (∀ (k : Nat) (hk : k < p.length), p.get ⟨k, hk⟩ = true →
            (∀ (j : Nat) (hj : j < p.length), j < k → p.get ⟨j, hj⟩ = false) →
            ∀ a : Nat, dictGet locs (t + (k : Int)) = some (some a) → r1 = some a) := by
  intro st i t pre p rest locs r1 r2 hloc hpre hwalk
  have hsp := smoothPatterns_first_match pre p rest locs t (r1, r2) hpre hwalk
  refine ⟨⟨st.sequences, dictSet st.locations i (rewriteLoop locs p t r1)⟩, ?_, rfl, ?_, ?_⟩
  · simp only [smooth_location, hloc, hsp]
  · intro j hj
    exact dictGet_dictSet_ne st.locations i j _ hj
  · refine ⟨rewriteLoop locs p t r1, dictGet_dictSet_self st.locations i _, ?_, ?_, ?_⟩
    · intro k hk hf
      exact rewriteLoop_sets p locs t r1 k hk hf
    · intro u hu
      exact rewriteLoop_frame p locs t r1 u hu
    · intro k hk ht he a hv
      exact walkLoop_first_true locs p t none (r1, r2) hwalk k hk ht he a hv

/-- Witness for C10 on the `[A,B,A,A]` sequence with the single pattern
`(T,F,T,T)`. -/
theorem smooth_frame_effect_witness :
    ∃ st2, smooth_location ⟨[], [(5, [(0, some 1), (1, some 2), (2, some 1), (3, some 1)])]⟩
        5 0 [[true, false, true, true]] = Except.ok (1, st2) ∧
      st2.sequences = [] := by
  obtain ⟨st2, h1, h2, _⟩ := smooth_frame_effect
    ⟨[], [(5, [(0, some 1), (1, some 2), (2, some 1), (3, some 1)])]⟩ 5 0
    [] [true, false, true, true] [] [(0, some 1), (1, some 2), (2, some 1), (3, some 1)]
    (some 1) (some 2) (by decide) (by simp) (by decide)
  exact ⟨st2, h1, h2⟩

/-! ### C7: termination of the outer smoothing loop -/

/-- The correction patterns the main program passes to `smooth_location`
(AABA and ABAA flickers). -/
def defaultPatterns : List (List Bool) :=
  [[true, false, true, true], [true, true, false, true]]

/-- A room sequence all of whose stored values are actual room ids (no
Python `None`), as `identify_location` produces. -/
def allSomeVals (locs : List (Int × Option Nat)) : Prop :=
  ∀ e ∈ locs, e.2.isSome

/-- Whether the room assignment changes between `u` and `u + 1` (both
present and with different values). -/
def roomChangeAt (locs : List (Int × Option Nat)) (u : Int) : Bool :=
  match dictGet locs u, dictGet locs (u + 1) with
  | some v, some w => decide (v ≠ w)
  | _, _ => false

/-- The number of A/B alternations of a room sequence: positions whose
room differs from the next position's room. -/
def altCount (locs : List (Int × Option Nat)) : Nat :=
  (locs.map Prod.fst).countP (roomChangeAt locs)

theorem allSomeVals_dictGet :
    ∀ (locs : List (Int × Option Nat)), allSomeVals locs →
      ∀ (u : Int) (v : Option Nat), dictGet locs u = some v → v.isSome := by
  intro locs hall u v hget
  induction locs with
  | nil => simp [dictGet] at hget
  | cons e rest ih =>
    by_cases he : e.1 = u
    · simp only [dictGet, if_pos he, Option.some.injEq] at hget
      rw [← hget]
      exact hall e (by simp)
    · simp only [dictGet, if_neg he] at hget
      exact ih (fun e2 he2 => hall e2 (by simp [he2])) hget

theorem allSomeVals_dictSet :
    ∀ (locs : List (Int × Option Nat)) (u : Int) (a : Nat),
      allSomeVals locs → allSomeVals (dictSet locs u (some a)) := by
  intro locs u a hall e he
  rcases mem_dictSet locs u (some a) e he with h | h
  · rw [h]; rfl
  · exact hall e h

theorem countP_lt_of_flip {α : Type} :
    ∀ (l : List α) (p q : α → Bool),
      (∀ a ∈ l, q a = true → p a = true) →
      ∀ a0 ∈ l, p a0 = true → q a0 = false →
      l.countP q < l.countP p := by
  intro l p q hmono a0 hmem hp hq
  induction l with
  | nil => simp at hmem
  | cons b rest ih =>
    rcases List.mem_cons.mp hmem with hb | hb
    · subst hb
      have hle : rest.countP q ≤ rest.countP p :=
        List.countP_mono_left (fun a ha hqa => hmono a (by simp [ha]) hqa)
      simp [List.countP_cons, hp, hq]
      omega
    · have hlt := ih (fun a ha hqa => hmono a (by simp [ha]) hqa) hb
      have hb2 : (if q b = true then 1 else 0) ≤ (if p b = true then 1 else 0) := by
        by_cases hqb : q b = true
        · simp [hqb, hmono b (by simp) hqb]
        · simp only [hqb, if_false]
          exact Nat.zero_le _
      simp only [List.countP_cons]
      omega

theorem altCount_dictSet_lt :
    ∀ (locs : List (Int × Option Nat)) (u : Int) (v oldv : Option Nat),
      dictGet locs (u - 1) = some v →
      dictGet locs u = some oldv →
      dictGet locs (u + 1) = some v →
      oldv ≠ v →
      altCount (dictSet locs u v) < altCount locs := by
  intro locs u v oldv hm1 h0 hp1 hne
  have hkeys : (dictSet locs u v).map Prod.fst = locs.map Prod.fst :=
    keys_dictSet_present locs u v (by simp [h0])
  have hum : u - 1 + 1 = u := by ring
  unfold altCount
  rw [hkeys]
  refine countP_lt_of_flip (locs.map Prod.fst) (roomChangeAt locs)
    (roomChangeAt (dictSet locs u v))
    ?_ (u - 1) (by simpa using mem_keys_of_dictGet locs (u - 1) v hm1) ?_ ?_
  · intro w _ hq
    by_cases hwu : w = u
    · exfalso
      rw [hwu] at hq
      unfold roomChangeAt at hq
      rw [dictGet_dictSet_self, dictGet_dictSet_ne locs u (u + 1) v (by omega)] at hq
      rw [hp1] at hq
      simp at hq
    · by_cases hwu1 : w + 1 = u
      · exfalso
        unfold roomChangeAt at hq
        rw [dictGet_dictSet_ne locs u w v hwu, hwu1, dictGet_dictSet_self] at hq
        have hw : w = u - 1 := by omega
        rw [hw, hm1] at hq
        simp at hq
      · unfold roomChangeAt at hq ⊢
        rw [dictGet_dictSet_ne locs u w v hwu, dictGet_dictSet_ne locs u (w + 1) v hwu1] at hq
        exact hq
  · unfold roomChangeAt
    rw [hm1, hum, h0]
    simp
    exact fun h => hne h.symm
  · unfold roomChangeAt
    rw [dictGet_dictSet_ne locs u (u - 1) v (by omega), hm1, hum, dictGet_dictSet_self]
    simp

theorem walkLoop_cons_true_inv :
    ∀ (locs : List (Int × Option Nat)) (rest : List Bool) (tc : Int) (r1 r2 : Option Nat)
      (res : Option Nat × Option Nat),
      walkLoop locs (true :: rest) tc r1 r2 = some res →
      ∃ room, dictGet locs tc = some room ∧
        (if r1 = none then room else r1) = room ∧
        walkLoop locs rest (tc + 1) (if r1 = none then room else r1) r2 = some res := by
  intro locs rest tc r1 r2 res h
  simp only [walkLoop] at h
  cases hd : dictGet locs tc with
  | none => rw [hd] at h; simp at h
  | some room =>
    rw [hd] at h
    simp only [if_true] at h
    by_cases hc : (if r1 = none then room else r1) = room
    · rw [if_pos hc] at h
      exact ⟨room, rfl, hc, h⟩
    · rw [if_neg hc] at h; simp at h

theorem walkLoop_cons_false_inv :
    ∀ (locs : List (Int × Option Nat)) (rest : List Bool) (tc : Int) (r1 r2 : Option Nat)
      (res : Option Nat × Option Nat),
      walkLoop locs (false :: rest) tc r1 r2 = some res →
      ∃ room, dictGet locs tc = some room ∧
        (if r2 = none then room else r2) ≠ r1 ∧
        (if r2 = none then room else r2) = room ∧
        walkLoop locs rest (tc + 1) r1 (if r2 = none then room else r2) = some res := by
  intro locs rest tc r1 r2 res h
  simp only [walkLoop] at h
  cases hd : dictGet locs tc with
  | none => rw [hd] at h; simp at h
  | some room =>
    rw [hd] at h
    simp only [Bool.false_eq_true, if_false] at h
    by_cases hc1 : (if r2 = none then room else r2) = r1
    · rw [if_pos hc1] at h; simp at h
    · rw [if_neg hc1] at h
      by_cases hc2 : (if r2 = none then room else r2) = room
      · rw [if_pos hc2] at h
        exact ⟨room, rfl, hc1, hc2, h⟩
      · rw [if_neg hc2] at h; simp at h

theorem walkLoop_nil_inv :
    ∀ (locs : List (Int × Option Nat)) (tc : Int) (r1 r2 : Option Nat)
      (res : Option Nat × Option Nat),
      walkLoop locs [] tc r1 r2 = some res → res = (r1, r2) := by
  intro locs tc r1 r2 res h
  simp only [walkLoop, Option.some.injEq] at h
  exact h.symm

theorem rewriteLoop_TFTT :
    ∀ (locs : List (Int × Option Nat)) (t : Int) (r1 : Option Nat),
      rewriteLoop locs [true, false, true, true] t r1 = dictSet locs (t + 1) r1 := by
  intro locs t r1
  rfl

theorem rewriteLoop_TTFT :
    ∀ (locs : List (Int × Option Nat)) (t : Int) (r1 : Option Nat),
      rewriteLoop locs [true, true, false, true] t r1 = dictSet locs (t + 1 + 1) r1 := by
  intro locs t r1
  rfl

theorem smoothPatterns_default_step :
    ∀ (locs : List (Int × Option Nat)) (t : Int),
      allSomeVals locs →
      smoothPatterns locs t defaultPatterns = (0, locs) ∨
      ∃ locs2, smoothPatterns locs t defaultPatterns = (1, locs2) ∧
        allSomeVals locs2 ∧ altCount locs2 < altCount locs := by
  intro locs t hall
  cases hw1 : walkLoop locs [true, false, true, true] t none none with
  | some r12 =>
    right
    obtain ⟨room0, hd0, _, h1⟩ := walkLoop_cons_true_inv locs _ t none none r12 hw1
    rw [if_pos rfl] at h1
    obtain ⟨a, ha⟩ := Option.isSome_iff_exists.mp (allSomeVals_dictGet locs hall t room0 hd0)
    subst ha
    obtain ⟨room1, hd1, hne1, _, h2⟩ :=
      walkLoop_cons_false_inv locs _ (t + 1) (some a) none r12 h1
    rw [if_pos rfl] at hne1 h2
    obtain ⟨b, hb⟩ :=
      Option.isSome_iff_exists.mp (allSomeVals_dictGet locs hall (t + 1) room1 hd1)
    subst hb
    obtain ⟨room2, hd2, hc2, h3⟩ :=
      walkLoop_cons_true_inv locs _ (t + 1 + 1) (some a) (some b) r12 h2
    rw [if_neg (by simp)] at hc2 h3
    obtain ⟨room3, hd3, _, h4⟩ :=
      walkLoop_cons_true_inv locs _ (t + 1 + 1 + 1) (some a) (some b) r12 h3
    rw [if_neg (by simp)] at h4
    have hres := walkLoop_nil_inv locs _ _ _ r12 h4
    refine ⟨dictSet locs (t + 1) (some a), ?_, ?_, ?_⟩
    · simp only [defaultPatterns, smoothPatterns, hw1, hres, rewriteLoop_TFTT]
    · exact allSomeVals_dictSet locs (t + 1) a hall
    · refine altCount_dictSet_lt locs (t + 1) (some a) (some b) ?_ hd1 ?_ hne1
      · have harith : t + 1 - 1 = t := by ring
        rw [harith]
        exact hd0
      · rw [← hc2] at hd2
        exact hd2
  | none =>
    cases hw2 : walkLoop locs [true, true, false, true] t none none with
    | some r12 =>
      right
      obtain ⟨room0, hd0, _, h1⟩ := walkLoop_cons_true_inv locs _ t none none r12 hw2
      rw [if_pos rfl] at h1
      obtain ⟨a, ha⟩ :=
        Option.isSome_iff_exists.mp (allSomeVals_dictGet locs hall t room0 hd0)
      subst ha
      obtain ⟨room1, hd1, hc1, h2⟩ :=
        walkLoop_cons_true_inv locs _ (t + 1) (some a) none r12 h1
      rw [if_neg (by simp)] at hc1 h2
      obtain ⟨room2, hd2, hne2, _, h3⟩ :=
        walkLoop_cons_false_inv locs _ (t + 1 + 1) (some a) none r12 h2
      rw [if_pos rfl] at hne2 h3
      obtain ⟨b, hb⟩ :=
        Option.isSome_iff_exists.mp (allSomeVals_dictGet locs hall (t + 1 + 1) room2 hd2)
      subst hb
      obtain ⟨room3, hd3, hc3, h4⟩ :=
        walkLoop_cons_true_inv locs _ (t + 1 + 1 + 1) (some a) (some b) r12 h3
      rw [if_neg (by simp)] at hc3 h4
      have hres := walkLoop_nil_inv locs _ _ _ r12 h4
      refine ⟨dictSet locs (t + 1 + 1) (some a), ?_, ?_, ?_⟩
      · simp only [defaultPatterns, smoothPatterns, hw1, hw2, hres, rewriteLoop_TTFT]
      · exact allSomeVals_dictSet locs (t + 1 + 1) a hall
      · refine altCount_dictSet_lt locs (t + 1 + 1) (some a) (some b) ?_ hd2 ?_ hne2
        · have harith : t + 1 + 1 - 1 = t + 1 := by ring
          rw [harith, hd1, ← hc1]
        · rw [hd3, ← hc3]
    | none =>
      left
      simp only [defaultPatterns, smoothPatterns, hw1, hw2]

theorem smoothPass_default_spec :
    ∀ (ts : List Int) (locs : List (Int × Option Nat)) (cnt0 : Nat),
      allSomeVals locs →
      cnt0 ≤ (ts.foldl (fun acc t =>
          ((smoothPatterns acc.1 t defaultPatterns).2,
            acc.2 + (smoothPatterns acc.1 t defaultPatterns).1)) (locs, cnt0)).2 ∧
      allSomeVals (ts.foldl (fun acc t =>
          ((smoothPatterns acc.1 t defaultPatterns).2,
            acc.2 + (smoothPatterns acc.1 t defaultPatterns).1)) (locs, cnt0)).1 ∧
      altCount (ts.foldl (fun acc t =>
          ((smoothPatterns acc.1 t defaultPatterns).2,
            acc.2 + (smoothPatterns acc.1 t defaultPatterns).1)) (locs, cnt0)).1
        ≤ altCount locs ∧
      (cnt0 < (ts.foldl (fun acc t =>
          ((smoothPatterns acc.1 t defaultPatterns).2,
            acc.2 + (smoothPatterns acc.1 t defaultPatterns).1)) (locs, cnt0)).2 →
        altCount (ts.foldl (fun acc t =>
          ((smoothPatterns acc.1 t defaultPatterns).2,
            acc.2 + (smoothPatterns acc.1 t defaultPatterns).1)) (locs, cnt0)).1
          < altCount locs) := by
  intro ts
  induction ts with
  | nil =>
    intro locs cnt0 hall
    simp only [List.foldl_nil]
    exact ⟨le_rfl, hall, le_rfl, fun h => absurd h (lt_irrefl cnt0)⟩
  | cons t ts ih =>
    intro locs cnt0 hall
    simp only [List.foldl_cons]
    rcases smoothPatterns_default_step locs t hall with h0 | ⟨locs2, h1, h2, h3⟩
    · rw [h0]
      simpa using ih locs cnt0 hall
    · rw [h1]
      dsimp only
      obtain ⟨ha, hb, hc, _⟩ := ih locs2 (cnt0 + 1) h2
      refine ⟨by omega, hb, le_trans hc (le_of_lt h3), fun _ => lt_of_le_of_lt hc h3⟩

theorem smoothPass_spec0 :
    ∀ (ts : List Int) (locs : List (Int × Option Nat)),
      allSomeVals locs →
      allSomeVals (smoothPass defaultPatterns ts locs).1 ∧
      altCount (smoothPass defaultPatterns ts locs).1 ≤ altCount locs ∧
      (0 < (smoothPass defaultPatterns ts locs).2 →
        altCount (smoothPass defaultPatterns ts locs).1 < altCount locs) := by
  intro ts locs hall
  have h := smoothPass_default_spec ts locs 0 hall
  exact ⟨h.2.1, h.2.2.1, h.2.2.2⟩

theorem smoothing_descends :
    ∀ (m : Nat) (locs : List (Int × Option Nat)) (ts : List Int),
      allSomeVals locs → altCount locs ≤ m →
      ∃ n, (smoothPass defaultPatterns ts ((passLocs defaultPatterns ts)^[n] locs)).2 = 0 := by
  intro m
  induction m with
  | zero =>
    intro locs ts hall hm
    refine ⟨0, ?_⟩
    simp only [Function.iterate_zero, id]
    by_contra h0
    have hspec := smoothPass_spec0 ts locs hall
    have hlt := hspec.2.2 (by omega)
    omega
  | succ m ih =>
    intro locs ts hall hm
    by_cases h0 : (smoothPass defaultPatterns ts locs).2 = 0
    · refine ⟨0, ?_⟩
      simpa using h0
    · have hspec := smoothPass_spec0 ts locs hall
      have hall2 : allSomeVals (smoothPass defaultPatterns ts locs).1 := hspec.1
      have hlt : altCount (smoothPass defaultPatterns ts locs).1 < altCount locs :=
        hspec.2.2 (by omega)
      obtain ⟨n, hn⟩ := ih (passLocs defaultPatterns ts locs) ts hall2 (by
        unfold passLocs
        omega)
      refine ⟨n + 1, ?_⟩
      rw [Function.iterate_succ_apply]
      exact hn

/-- C7 counterexample: with the pattern `(False, True)` and a constant
two-entry room sequence, every full pass applies a "correction" that
changes nothing, so the while-loop of the main program never reaches a
zero-correction pass. -/
theorem smoothing_loop_diverges :
    ¬ smoothingTerminates [[false, true]] [0, 1] [(0, some 1), (1, some 1)] := by
  intro hterm
  obtain ⟨n, hn⟩ := hterm
  have hfix : passLocs [[false, true]] [0, 1] [(0, some 1), (1, some 1)]
      = [(0, some 1), (1, some 1)] := by decide
  rw [Function.iterate_fixed hfix n] at hn
  have hone : (smoothPass [[false, true]] [0, 1] [(0, some 1), (1, some 1)]).2 = 1 := by
    decide
  omega

/-- C7 (amended): for every finite room sequence whose values are actual
room ids (as produced by the estimator) and every finite timestamp range,
the outer smoothing loop with the program's correction patterns
(`(T,F,T,T)` and `(T,T,F,T)`) terminates: some pass makes zero
corrections, because each applied correction strictly reduces the number
of A/B alternations. -/
theorem smoothing_loop_terminates_default :
    ∀ (locs : List (Int × Option Nat)) (ts : List Int),
      allSomeVals locs → smoothingTerminates defaultPatterns ts locs := by
  intro locs ts hall
  exact smoothing_descends (altCount locs) locs ts hall le_rfl

/-- Witness for the amended C7 on the concrete sequence `[A,B,A,A]` over
the range 0..3. -/
theorem smoothing_loop_terminates_default_witness :
    smoothingTerminates defaultPatterns [0, 1, 2, 3]
      [(0, some 1), (1, some 2), (2, some 1), (3, some 1)] :=
  smoothing_loop_terminates_default [(0, some 1), (1, some 2), (2, some 1), (3, some 1)]
    [0, 1, 2, 3] (by unfold allSomeVals; decide)

/-! ### C1: first-seen strict-maximum selection with threshold -/

/-- One step of the maximum-search loop of `identify_location`. -/
def maxStep (acc : ℚ × Nat) (rs : Nat × ℚ) : ℚ × Nat :=
  if acc.1 < rs.2 then (rs.2, rs.1) else acc

theorem findMax_eq_foldl :
    ∀ S : List (Nat × ℚ), findMax S = S.foldl maxStep (0, 0) := by
  intro S
  rfl

theorem foldl_maxStep_char :
    ∀ (S : List (Nat × ℚ)) (ms : ℚ) (mi : Nat),
      (S.foldl maxStep (ms, mi) = (ms, mi) ∧ ∀ p ∈ S, p.2 ≤ ms) ∨
      (∃ k : Fin S.length,
        (S.get k).2 = (S.foldl maxStep (ms, mi)).1 ∧
        (S.get k).1 = (S.foldl maxStep (ms, mi)).2 ∧
        ms < (S.foldl maxStep (ms, mi)).1 ∧
        (∀ j : Fin S.length, (j : Nat) < (k : Nat) →
          (S.get j).2 < (S.foldl maxStep (ms, mi)).1) ∧
        (∀ j : Fin S.length, (S.get j).2 ≤ (S.foldl maxStep (ms, mi)).1)) := by
  intro S
  induction S with
  | nil =>
    intro ms mi
    left
    exact ⟨rfl, by simp⟩
  | cons p2 S ih =>
    intro ms mi
    simp only [List.foldl_cons]
    by_cases hlt : ms < p2.2
    · have hstep : maxStep (ms, mi) p2 = (p2.2, p2.1) := by simp [maxStep, hlt]
      rw [hstep]
      rcases ih p2.2 p2.1 with ⟨heq, hle⟩ | ⟨k, h1, h2, h3, h4, h5⟩
      · right
        rw [heq]
        refine ⟨⟨0, by simp⟩, by simp, by simp, hlt, ?_, ?_⟩
        · intro j hj
          simp at hj
        · intro j
          match j with
          | ⟨0, hj⟩ => simp
          | ⟨Nat.succ n, hj⟩ =>
            have hn : n < S.length := by simpa using hj
            simp only [List.get_cons_succ]
            exact hle (S.get ⟨n, hn⟩) (S.get_mem n hn)
      · right
        refine ⟨⟨k.1 + 1, by simp⟩, by simpa using h1, by simpa using h2,
          lt_trans hlt h3, ?_, ?_⟩
        · intro j hj
          match j with
          | ⟨0, hj2⟩ =>
            simpa using h3
          | ⟨Nat.succ n, hj2⟩ =>
            have hn : n < S.length := by simpa using hj2
            have hnk : n < (k : Nat) := by simpa using hj
            simp only [List.get_cons_succ]
            exact h4 ⟨n, hn⟩ hnk
        · intro j
          match j with
          | ⟨0, hj2⟩ => simpa using le_of_lt h3
          | ⟨Nat.succ n, hj2⟩ =>
            have hn : n < S.length := by simpa using hj2
            simp only [List.get_cons_succ]
            exact h5 ⟨n, hn⟩
    · have hstep : maxStep (ms, mi) p2 = (ms, mi) := by simp [maxStep, hlt]
      rw [hstep]
      rcases ih ms mi with ⟨heq, hle⟩ | ⟨k, h1, h2, h3, h4, h5⟩
      · left
        refine ⟨heq, ?_⟩
        intro p hp
        rcases List.mem_cons.mp hp with h | h
        · rw [h]
          exact le_of_not_lt hlt
        · exact hle p h
      · right
        refine ⟨⟨k.1 + 1, by simp⟩, by simpa using h1, by simpa using h2, h3, ?_, ?_⟩
        · intro j hj
          match j with
          | ⟨0, hj2⟩ =>
            have : p2.2 ≤ ms := le_of_not_lt hlt
            simpa using lt_of_le_of_lt this h3
          | ⟨Nat.succ n, hj2⟩ =>
            have hn : n < S.length := by simpa using hj2
            have hnk : n < (k : Nat) := by simpa using hj
            simp only [List.get_cons_succ]
            exact h4 ⟨n, hn⟩ hnk
        · intro j
          match j with
          | ⟨0, hj2⟩ =>
            have : p2.2 ≤ ms := le_of_not_lt hlt
            simpa using le_trans this (le_of_lt h3)
          | ⟨Nat.succ n, hj2⟩ =>
            have hn : n < S.length := by simpa using hj2
            simp only [List.get_cons_succ]
            exact h5 ⟨n, hn⟩

/-- C1: `identify_location` selects the room with the strictly largest
aggregated signal; an iteration-later room with an aggregated signal equal
to the running maximum never replaces the earlier one (every room strictly
before the selected index has a strictly smaller signal), and the result
is 0 whenever the maximum aggregated signal is below the threshold
3.16e-9 mW (in particular when no room had any signal). -/
theorem identify_first_seen_max :
    ∀ (st : AllData) (i : Nat) (t : Int) (kern : List (Int × ℚ)) (wnd : ℚ)
      (S : List (Nat × ℚ)) (r : Nat) (st2 : AllData),
      aggregate st i t kern = Except.ok (wnd, S) →
      identify_location st i t kern = Except.ok (r, st2) →
      ((findMax S).1 < THRESHOLD → r = 0) ∧
      (THRESHOLD ≤ (findMax S).1 →
        ∃ k : Fin S.length,
          (S.get k).1 = r ∧ (S.get k).2 = (findMax S).1 ∧
          (∀ j : Fin S.length, (j : Nat) < (k : Nat) → (S.get j).2 < (findMax S).1) ∧
          (∀ j : Fin S.length, (S.get j).2 ≤ (findMax S).1)) := by
  intro st i t kern wnd S r st2 hagg hid
  have hr : r = if (findMax S).1 < THRESHOLD then 0 else (findMax S).2 := by
    simp only [identify_location, identify_location_thr, hagg, Except.ok.injEq,
      Prod.mk.injEq] at hid
    exact hid.1.symm
  constructor
  · intro hlt
    rw [hr, if_pos hlt]
  · intro hge
    have hnlt : ¬(findMax S).1 < THRESHOLD := not_lt.mpr hge
    rw [hr, if_neg hnlt]
    have h0 : (0 : ℚ) < (findMax S).1 :=
      lt_of_lt_of_le (by norm_num [THRESHOLD]) hge
    rcases foldl_maxStep_char S 0 0 with ⟨heq, _⟩ | ⟨k, h1, h2, h3, h4, h5⟩
    · exfalso
      rw [findMax_eq_foldl, heq] at h0
      simp at h0
    · rw [findMax_eq_foldl]
      exact ⟨k, h2, h1, h4, h5⟩

/-- Witness for C1 on the scaled example state (aggregated signal 3e-8,
above the threshold, room 10050 selected). -/
theorem identify_first_seen_max_witness :
    ((findMax [(10050, (3e-8 : ℚ))]).1 < THRESHOLD → (10050 : Nat) = 0) ∧
    (THRESHOLD ≤ (findMax [(10050, (3e-8 : ℚ))]).1 →
      ∃ k : Fin ([(10050, (3e-8 : ℚ))] : List (Nat × ℚ)).length,
        (([(10050, (3e-8 : ℚ))] : List (Nat × ℚ)).get k).1 = 10050 ∧
        (([(10050, (3e-8 : ℚ))] : List (Nat × ℚ)).get k).2 =
          (findMax [(10050, (3e-8 : ℚ))]).1 ∧
        (∀ j : Fin ([(10050, (3e-8 : ℚ))] : List (Nat × ℚ)).length, (j : Nat) < (k : Nat) →
          (([(10050, (3e-8 : ℚ))] : List (Nat × ℚ)).get j).2 <
            (findMax [(10050, (3e-8 : ℚ))]).1) ∧
        (∀ j : Fin ([(10050, (3e-8 : ℚ))] : List (Nat × ℚ)).length,
          (([(10050, (3e-8 : ℚ))] : List (Nat × ℚ)).get j).2 ≤
            (findMax [(10050, (3e-8 : ℚ))]).1)) :=
  identify_first_seen_max exState10 7 100 [(0, 1)] 2 [(10050, 3e-8)] 10050
    (updateLoc exState10 7 100 10050)
    (by norm_num [aggregate, contactsOf, stepWeight, wndLoop, dataLoop, innerContacts,
      innerRooms, signalsSum, dictGet, dictSet, exState10, exSeqR10, exSeqX10,
      Receiver_sequence.return_nearest_rooms, Receiver_sequence.return_neighbor_ids,
      Signals.return_nearest_rooms, Signals.return_neighbor_ids])
    (by norm_num [identify_location, identify_location_thr, THRESHOLD, findMax, updateLoc,
      aggregate, contactsOf, stepWeight, wndLoop, dataLoop, innerContacts, innerRooms,
      signalsSum, dictGet, dictSet, exState10, exSeqR10, exSeqX10,
      Receiver_sequence.return_nearest_rooms, Receiver_sequence.return_neighbor_ids,
      Signals.return_nearest_rooms, Signals.return_neighbor_ids])

/-! ### C6: missing data and missing observation stores -/

/-- C6 counterexample: receiver 1's snapshot lists mobile mote 9 as a
contact, but mote 9 has no observation store in `sequences`; the lookup
`self.sequences[c]` in `identify_location` then raises `KeyError` instead
of treating the absence as "unknown". -/
theorem identify_missing_store_raises :
    identify_location exStateOrphan 1 100 [(0, 1)] = Except.error "KeyError: sequences" := by
  norm_num [identify_location, identify_location_thr, aggregate, contactsOf, stepWeight,
    wndLoop, dataLoop, innerContacts, innerRooms, dictGet, dictSet, exStateOrphan,
    exSeqOrphan, Receiver_sequence.return_nearest_rooms,
    Receiver_sequence.return_neighbor_ids, Signals.return_nearest_rooms,
    Signals.return_neighbor_ids]

theorem contactsOf_aux :
    ∀ (seq_i : Receiver_sequence) (i : Nat) (t : Int) (kern : List (Int × ℚ))
      (acc : List (Int × List Nat)) (e : Int × List Nat),
      e ∈ kern.foldl (fun cs tw =>
        match dictGet seq_i.sequence (t + tw.1) with
        | some _ => dictSet cs (t + tw.1) (i :: seq_i.return_neighbor_ids (t + tw.1))
        | none => cs) acc →
      e ∈ acc ∨
        ∃ tw ∈ kern, e.1 = t + tw.1 ∧ e.2 = i :: seq_i.return_neighbor_ids (t + tw.1) := by
  intro seq_i i t kern
  induction kern with
  | nil => intro acc e he; left; simpa using he
  | cons tw rest ih =>
    intro acc e he
    simp only [List.foldl_cons] at he
    cases hd : dictGet seq_i.sequence (t + tw.1) with
    | none =>
      rw [hd] at he
      rcases ih acc e he with h | ⟨tw2, htw2, h1, h2⟩
      · left; exact h
      · right; exact ⟨tw2, by simp [htw2], h1, h2⟩
    | some sg =>
      rw [hd] at he
      rcases ih _ e he with h | ⟨tw2, htw2, h1, h2⟩
      · rcases mem_dictSet _ _ _ e h with h2 | h2
        · right
          refine ⟨tw, by simp, ?_, ?_⟩
          · rw [h2]
          · rw [h2]
        · left; exact h2
      · right; exact ⟨tw2, by simp [htw2], h1, h2⟩

theorem contactsOf_shape :
    ∀ (seq_i : Receiver_sequence) (i : Nat) (t : Int) (kern : List (Int × ℚ))
      (e : Int × List Nat), e ∈ contactsOf seq_i i t kern →
      ∃ tw ∈ kern, e.1 = t + tw.1 ∧ e.2 = i :: seq_i.return_neighbor_ids (t + tw.1) := by
  intro seq_i i t kern e he
  rcases contactsOf_aux seq_i i t kern [] e he with h | h
  · simp at h
  · exact h

theorem stepWeight_isSome_carry :
    ∀ (kern : List (Int × ℚ)) (t t_cur : Int) (carry : Option ℚ),
      carry.isSome → (stepWeight kern t t_cur carry).isSome := by
  intro kern t t_cur
  induction kern with
  | nil => intro carry h; exact h
  | cons tw rest ih =>
    intro carry h
    simp only [stepWeight, List.foldl_cons]
    by_cases hc : t_cur - tw.1 = t
    · rw [if_pos hc]
      exact ih (some tw.2) rfl
    · rw [if_neg hc]
      exact ih carry h

theorem stepWeight_isSome_of_match :
    ∀ (kern : List (Int × ℚ)) (t t_cur : Int) (carry : Option ℚ),
      (∃ tw ∈ kern, t_cur - tw.1 = t) → (stepWeight kern t t_cur carry).isSome := by
  intro kern t t_cur
  induction kern with
  | nil => intro carry h; simp at h
  | cons tw rest ih =>
    intro carry ⟨tw2, htw2, hm⟩
    simp only [stepWeight, List.foldl_cons]
    rcases List.mem_cons.mp htw2 with h | h
    · subst h
      rw [if_pos hm]
      exact stepWeight_isSome_carry rest t t_cur (some tw2.2) rfl
    · by_cases hc : t_cur - tw.1 = t
      · rw [if_pos hc]
        exact stepWeight_isSome_carry rest t t_cur (some tw.2) rfl
      · rw [if_neg hc]
        exact ih carry ⟨tw2, h, hm⟩

theorem stepWeight_pos :
    ∀ (kern : List (Int × ℚ)) (t t_cur : Int) (carry : Option ℚ) (w : ℚ),
      (∀ tw ∈ kern, 0 < tw.2) → (∀ w2, carry = some w2 → 0 < w2) →
      stepWeight kern t t_cur carry = some w → 0 < w := by
  intro kern t t_cur
  induction kern with
  | nil => intro carry w _ hcarry h; exact hcarry w h
  | cons tw rest ih =>
    intro carry w hpos hcarry h
    simp only [stepWeight, List.foldl_cons] at h
    by_cases hc : t_cur - tw.1 = t
    · rw [if_pos hc] at h
      refine ih (some tw.2) w (fun tw2 h2 => hpos tw2 (by simp [h2])) ?_ h
      intro w2 hw2
      simp only [Option.some.injEq] at hw2
      rw [← hw2]
      exact hpos tw (by simp)
    · rw [if_neg hc] at h
      exact ih carry w (fun tw2 h2 => hpos tw2 (by simp [h2])) hcarry h

theorem wndLoop_ok :
    ∀ (kern : List (Int × ℚ)) (t : Int) (entries : List (Int × List Nat))
      (carry : Option ℚ) (acc : ℚ),
      (∀ e ∈ entries, ∃ tw ∈ kern, e.1 = t + tw.1) →
      (∀ e ∈ entries, e.2 ≠ []) →
      (∀ tw ∈ kern, 0 < tw.2) →
      (∀ w2, carry = some w2 → 0 < w2) →
      ∃ w c, wndLoop kern t entries carry acc = Except.ok (w, c) ∧ acc ≤ w ∧
        (entries ≠ [] → acc < w) := by
  intro kern t entries
  induction entries with
  | nil =>
    intro carry acc _ _ _ _
    exact ⟨acc, carry, rfl, le_rfl, fun h => absurd rfl h⟩
  | cons e rest ih =>
    intro carry acc hmatch hne hpos hcarry
    have hm : ∃ tw ∈ kern, e.1 - tw.1 = t := by
      obtain ⟨tw, htw, he⟩ := hmatch e (by simp)
      exact ⟨tw, htw, by rw [he]; ring⟩
    obtain ⟨w, hw⟩ := Option.isSome_iff_exists.mp (stepWeight_isSome_of_match kern t e.1 carry hm)
    have hwpos : 0 < w := stepWeight_pos kern t e.1 carry w hpos hcarry hw
    simp only [wndLoop, hw]
    have hlen : (1 : ℚ) ≤ (e.2.length : ℚ) := by
      have h1 : 1 ≤ e.2.length := List.length_pos.mpr (hne e (by simp))
      exact_mod_cast h1
    have hstep : acc < acc + (e.2.length : ℚ) * w := by
      have h2 : w ≤ (e.2.length : ℚ) * w := le_mul_of_one_le_left (le_of_lt hwpos) hlen
      linarith
    obtain ⟨w2, c2, heq, hle, _⟩ := ih (some w) (acc + (e.2.length : ℚ) * w)
      (fun e2 he2 => hmatch e2 (by simp [he2]))
      (fun e2 he2 => hne e2 (by simp [he2])) hpos
      (fun w2 hw2 => by
        simp only [Option.some.injEq] at hw2
        rw [← hw2]
        exact hwpos)
    exact ⟨w2, c2, heq, le_trans (le_of_lt hstep) hle, fun _ => lt_of_lt_of_le hstep hle⟩

theorem innerRooms_ok :
    ∀ (rooms : List (Nat × (ℚ × Int))) (m : List (Nat × ℚ)) (w wnd : ℚ),
      wnd ≠ 0 → ∃ m2, innerRooms m rooms w wnd = Except.ok m2 := by
  intro rooms
  induction rooms with
  | nil => intro m w wnd _; exact ⟨m, rfl⟩
  | cons rp rest ih =>
    intro m w wnd hwnd
    simp only [innerRooms, if_neg hwnd]
    cases hd : dictGet m rp.1 with
    | none => exact ih _ w wnd hwnd
    | some old => exact ih _ w wnd hwnd

theorem innerContacts_ok :
    ∀ (seqs : List (Nat × Receiver_sequence)) (cs : List Nat) (t_cur : Int) (w wnd : ℚ)
      (m : List (Nat × ℚ)),
      wnd ≠ 0 → (∀ c ∈ cs, (dictGet seqs c).isSome) →
      ∃ m2, innerContacts seqs cs t_cur w wnd m = Except.ok m2 := by
  intro seqs cs t_cur w wnd
  induction cs with
  | nil => intro m _ _; exact ⟨m, rfl⟩
  | cons c rest ih =>
    intro m hwnd hstores
    obtain ⟨seqc, hseqc⟩ := Option.isSome_iff_exists.mp (hstores c (by simp))
    obtain ⟨m2, hm2⟩ := innerRooms_ok (seqc.return_nearest_rooms t_cur) m w wnd hwnd
    simp only [innerContacts, hseqc, hm2]
    exact ih m2 hwnd (fun c2 hc2 => hstores c2 (by simp [hc2]))

theorem dataLoop_ok :
    ∀ (seqs : List (Nat × Receiver_sequence)) (kern : List (Int × ℚ)) (t : Int)
      (entries : List (Int × List Nat)) (carry : Option ℚ) (wnd : ℚ)
      (data : List (Int × List (Nat × ℚ))),
      (∀ e ∈ entries, ∃ tw ∈ kern, e.1 = t + tw.1) →
      (∀ e ∈ entries, ∀ c ∈ e.2, (dictGet seqs c).isSome) →
      wnd ≠ 0 →
      ∃ d2, dataLoop seqs kern t entries carry wnd data = Except.ok d2 := by
  intro seqs kern t entries
  induction entries with
  | nil => intro carry wnd data _ _ _; exact ⟨data, rfl⟩
  | cons e rest ih =>
    intro carry wnd data hmatch hstores hwnd
    have hm : ∃ tw ∈ kern, e.1 - tw.1 = t := by
      obtain ⟨tw, htw, he⟩ := hmatch e (by simp)
      exact ⟨tw, htw, by rw [he]; ring⟩
    obtain ⟨w, hw⟩ := Option.isSome_iff_exists.mp (stepWeight_isSome_of_match kern t e.1 carry hm)
    obtain ⟨m2, hm2⟩ := innerContacts_ok seqs e.2 e.1 w wnd [] hwnd
      (fun c hc => hstores e (by simp) c hc)
    simp only [dataLoop, hw, hm2]
    exact ih (some w) wnd _ (fun e2 he2 => hmatch e2 (by simp [he2]))
      (fun e2 he2 => hstores e2 (by simp [he2])) hwnd

/-- C6 (amended): provided receiver `i` has an observation store and every
mobile contact appearing in the window has an observation store of its
own, `identify_location` with positive kernel weights raises no exception:
it returns a result (the division is never by zero), and when the
normalizer `w_number_datapoints` is 0 — no snapshot in the whole window —
the result is room 0. -/
theorem identify_no_error_when_stores_present :
    ∀ (st : AllData) (i : Nat) (t : Int) (kern : List (Int × ℚ))
      (seq_i : Receiver_sequence),
      dictGet st.sequences i = some seq_i →
      (∀ tw ∈ kern, 0 < tw.2) →
      (∀ e ∈ contactsOf seq_i i t kern, ∀ c ∈ e.2, (dictGet st.sequences c).isSome) →
      ∃ (wnd : ℚ) (S : List (Nat × ℚ)) (r : Nat) (st2 : AllData),
        aggregate st i t kern = Except.ok (wnd, S) ∧
        identify_location st i t kern = Except.ok (r, st2) ∧
        (wnd = 0 → r = 0) := by
  intro st i t kern seq_i hseq hpos hstores
  by_cases hc : contactsOf seq_i i t kern = []
  · refine ⟨0, [], 0, updateLoc st i t 0, ?_, ?_, fun _ => rfl⟩
    · simp only [aggregate, hseq, hc]
      rfl
    · have hagg : aggregate st i t kern = Except.ok (0, []) := by
        simp only [aggregate, hseq, hc]
        rfl
      simp only [identify_location, identify_location_thr, hagg]
      norm_num [findMax, THRESHOLD]
  · have hmatch : ∀ e ∈ contactsOf seq_i i t kern, ∃ tw ∈ kern, e.1 = t + tw.1 := by
      intro e he
      obtain ⟨tw, htw, h1, _⟩ := contactsOf_shape seq_i i t kern e he
      exact ⟨tw, htw, h1⟩
    have hne : ∀ e ∈ contactsOf seq_i i t kern, e.2 ≠ [] := by
      intro e he
      obtain ⟨tw, _, _, h2⟩ := contactsOf_shape seq_i i t kern e he
      rw [h2]
      exact List.cons_ne_nil _ _
    obtain ⟨w, c, hwnd, _, hstrict⟩ :=
      wndLoop_ok kern t (contactsOf seq_i i t kern) none 0 hmatch hne hpos
        (fun w2 h => by simp at h)
    have hwpos : (0 : ℚ) < w := hstrict hc
    obtain ⟨d2, hdata⟩ := dataLoop_ok st.sequences kern t (contactsOf seq_i i t kern) c w []
      hmatch hstores (ne_of_gt hwpos)
    have hagg : aggregate st i t kern = Except.ok (w, signalsSum d2) := by
      simp only [aggregate, hseq, hwnd, hdata]
    refine ⟨w, signalsSum d2,
      if (findMax (signalsSum d2)).1 < THRESHOLD then 0 else (findMax (signalsSum d2)).2,
      updateLoc st i t (if (findMax (signalsSum d2)).1 < THRESHOLD then 0
        else (findMax (signalsSum d2)).2), hagg, ?_, ?_⟩
    · simp only [identify_location, identify_location_thr, hagg]
    · intro h
      exact absurd h (ne_of_gt hwpos)

/-- Witness for the amended C6 on the example state (both contacts have
observation stores). -/
theorem identify_no_error_witness :
    ∃ (wnd : ℚ) (S : List (Nat × ℚ)) (r : Nat) (st2 : AllData),
      aggregate exState 7 100 [(0, 1)] = Except.ok (wnd, S) ∧
      identify_location exState 7 100 [(0, 1)] = Except.ok (r, st2) ∧
      (wnd = 0 → r = 0) :=
  identify_no_error_when_stores_present exState 7 100 [(0, 1)] exSeqR rfl
    (by norm_num)
    (by
      intro e he c hcmem
      norm_num [contactsOf, dictGet, dictSet, exState, exSeqR,
        Receiver_sequence.return_neighbor_ids, Signals.return_neighbor_ids] at he
      subst he
      simp only [List.mem_cons, List.not_mem_nil, or_false] at hcmem
      rcases hcmem with h | h
      · subst h
        rfl
      · subst h
        rfl)

/-! ### C8: threshold monotonicity -/

/-- C8: for fixed observation inputs, kernel and timestamp range, running
`identify_location` with a larger detection threshold never yields more
non-zero room assignments than running it with a smaller one (the
per-timestamp results depend only on `sequences`, which both runs share). -/
theorem run_count_antitone_threshold :
    ∀ (thr1 thr2 : ℚ) (i : Nat) (kern : List (Int × ℚ)) (ts : List Int)
      (seqs : List (Nat × Receiver_sequence))
      (l1 l2 : List (Nat × List (Int × Option Nat))),
      thr1 ≤ thr2 →
      (runIdentify thr2 ⟨seqs, l2⟩ i kern ts).1 ≤ (runIdentify thr1 ⟨seqs, l1⟩ i kern ts).1 := by
  intro thr1 thr2 i kern ts
  induction ts with
  | nil => intro seqs l1 l2 _; exact le_rfl
  | cons t ts ih =>
    intro seqs l1 l2 hth
    have hagg : aggregate ⟨seqs, l2⟩ i t kern = aggregate ⟨seqs, l1⟩ i t kern := rfl
    cases ha : aggregate ⟨seqs, l1⟩ i t kern with
    | error e =>
      simp only [runIdentify, identify_location_thr, hagg, ha]
      exact le_rfl
    | ok ws =>
      simp only [runIdentify, identify_location_thr, hagg, ha]
      by_cases h2 : (findMax ws.2).1 < thr2
      · by_cases h1 : (findMax ws.2).1 < thr1
        · simp only [if_pos h2, if_pos h1]
          simp only [ne_eq, not_true_eq_false, if_false, ite_false, not_false_eq_true]
          exact Nat.add_le_add (le_rfl) (ih seqs _ _ hth)
        · simp only [if_pos h2, if_neg h1]
          refine Nat.add_le_add ?_ (ih seqs _ _ hth)
          simp only [ne_eq, not_true_eq_false, ite_false]
          exact Nat.zero_le _
      · have h1 : ¬(findMax ws.2).1 < thr1 := fun hlt => h2 (lt_of_lt_of_le hlt hth)
        simp only [if_neg h2, if_neg h1]
        exact Nat.add_le_add le_rfl (ih seqs _ _ hth)

/-- Witness for C8 with thresholds 1e-9 ≤ 1 on the scaled example state. -/
theorem run_count_antitone_threshold_witness :
    (runIdentify 1 ⟨[(7, exSeqR10), (8, exSeqX10)], [(7, []), (8, [])]⟩ 7
        [(0, 1)] [100]).1 ≤
    (runIdentify 1e-9 ⟨[(7, exSeqR10), (8, exSeqX10)], [(7, []), (8, [])]⟩ 7
        [(0, 1)] [100]).1 :=
  run_count_antitone_threshold 1e-9 1 7 [(0, 1)] [100] [(7, exSeqR10), (8, exSeqX10)]
    [(7, []), (8, [])] [(7, []), (8, [])] (by norm_num)
